import Mathlib

/-!
# asciidocgo: the Document monitor and the pattern catalog

A shallow embedding of `document.go` and `asciidocgo.go`.

* A `*Document` is an address into a `Store` of allocated documents; the nil
  pointer is `none`.  A method called on a nil or dangling receiver panics,
  which the embedding renders as `none`.
* Go `int` is embedded as `Int`, with addition wrapped to the 64-bit
  two's-complement range (`goAdd`).
* A Go `map[string]T` is an association list with `GoMap.set` replacing the
  value of a key that is already present.
-/

namespace Asciidocgo

/-! ## Go integers -/

/-- Width in bits of the Go `int` type on the 64-bit targets. -/
def intSize : Nat := 64

/-- Reduce an integer to the two's-complement range of a Go `int`. -/
def wrapInt (x : Int) : Int :=
  (x + 2 ^ (intSize - 1)) % 2 ^ intSize - 2 ^ (intSize - 1)

/-- Go `a + b` on `int`: addition that wraps around on overflow. -/
def goAdd (a b : Int) : Int := wrapInt (a + b)

/-! ## document.go -/

/-- The four recorded durations of `type monitorData struct`. -/
structure monitorData where
  readTime : Int
  parseTime : Int
  renderTime : Int
  writeTime : Int
  deriving DecidableEq, Repr

/-- The `type Document struct`: the `*monitorData` field is `none` when nil. -/
structure Document where
  monitorData : Option monitorData
  data : List String
  options : List (String × String)
  deriving DecidableEq, Repr

/-- The `type NotMonitoredError struct`, carrying the description of the error. -/
structure NotMonitoredError where
  msg : String
  deriving DecidableEq, Repr

/-- The method `func (e *NotMonitoredError) Error() string`. -/
def NotMonitoredError.Error (e : NotMonitoredError) : String := e.msg

/-- The allocated documents; a `*Document` is an index into this list. -/
abbrev Store := List Document

/-- A `*Document`: `none` is the nil pointer. -/
abbrev DocPtr := Option Nat

/-- Dereference of a `*Document`; `none` stands for the nil-dereference panic. -/
def deref (s : Store) (d : DocPtr) : Option Document :=
  match d with
  | none => none
  | some a => s[a]?

/-- The method `func (d *Document) IsMonitored() bool`. -/
def IsMonitored (s : Store) (d : DocPtr) : Option Bool :=
  match deref s d with
  | none => none
  | some doc => some (doc.monitorData != none)

/-- The method `func (d *Document) Monitor() *Document`: the store after the call
and the returned pointer. -/
def Monitor (s : Store) (d : DocPtr) : Option (Store × DocPtr) :=
  match d with
  | none => none
  | some a =>
    match s[a]? with
    | none => none
    | some doc =>
      if doc.monitorData == none then
        some (s.set a { doc with monitorData := some ⟨0, 0, 0, 0⟩ }, d)
      else
        some (s, d)

/-- The constructor `func NewDocument(data []string, options map[string]string) *Document`:
a fresh document is allocated at the end of the store. -/
def NewDocument (s : Store) (data : List String) (options : List (String × String)) :
    Store × DocPtr :=
  (s ++ [⟨none, data, options⟩], some s.length)

/-- The method `func (d *Document) ReadTime() (readTime int, err error)`. -/
def ReadTime (s : Store) (d : DocPtr) : Option (Int × Option NotMonitoredError) :=
  match IsMonitored s d with
  | none => none
  | some monitored =>
    if monitored == false then
      some (0, some ⟨"No readTime: current document is not monitored"⟩)
    else
      match deref s d with
      | some ⟨some m, _, _⟩ => some (m.readTime, none)
      | _ => none

/-- The method `func (d *Document) ParseTime() (parseTime int, err error)`. -/
def ParseTime (s : Store) (d : DocPtr) : Option (Int × Option NotMonitoredError) :=
  match IsMonitored s d with
  | none => none
  | some monitored =>
    if monitored == false then
      some (0, some ⟨"No parseTime: current document is not monitored"⟩)
    else
      match deref s d with
      | some ⟨some m, _, _⟩ => some (m.parseTime, none)
      | _ => none

/-- The method `func (d *Document) LoadTime() (loadTime int, err error)`. -/
def LoadTime (s : Store) (d : DocPtr) : Option (Int × Option NotMonitoredError) :=
  match IsMonitored s d with
  | none => none
  | some monitored =>
    if monitored == false then
      some (0, some ⟨"No loadTime: current document is not monitored"⟩)
    else
      match ReadTime s d, ParseTime s d with
      | some (readTime, _), some (parseTime, _) => some (goAdd readTime parseTime, none)
      | _, _ => none

/-- The method `func (d *Document) RenderTime() (renderTime int, err error)`. -/
def RenderTime (s : Store) (d : DocPtr) : Option (Int × Option NotMonitoredError) :=
  match IsMonitored s d with
  | none => none
  | some monitored =>
    if monitored == false then
      some (0, some ⟨"No ploadTime: current document is not monitored"⟩)
    else
      match deref s d with
      | some ⟨some m, _, _⟩ => some (m.renderTime, none)
      | _ => none

/-- The method `func (d *Document) LoadRenderTime() (loadRenderTime int, err error)`. -/
def LoadRenderTime (s : Store) (d : DocPtr) : Option (Int × Option NotMonitoredError) :=
  match IsMonitored s d with
  | none => none
  | some monitored =>
    if monitored == false then
      some (0, some ⟨"No loadTime: current document is not monitored"⟩)
    else
      match LoadTime s d, RenderTime s d with
      | some (loadTime, _), some (renderTime, _) => some (goAdd loadTime renderTime, none)
      | _, _ => none

/-- The method `func (d *Document) WriteTime() (writeTime int, err error)`. -/
def WriteTime (s : Store) (d : DocPtr) : Option (Int × Option NotMonitoredError) :=
  match IsMonitored s d with
  | none => none
  | some monitored =>
    if monitored == false then
      some (0, some ⟨"No ploadTime: current document is not monitored"⟩)
    else
      match deref s d with
      | some ⟨some m, _, _⟩ => some (m.writeTime, none)
      | _ => none

/-- The method `func (d *Document) TotalTime() (totalTime int, err error)`. -/
def TotalTime (s : Store) (d : DocPtr) : Option (Int × Option NotMonitoredError) :=
  match IsMonitored s d with
  | none => none
  | some monitored =>
    if monitored == false then
      some (0, some ⟨"No loadTime: current document is not monitored"⟩)
    else
      match LoadRenderTime s d, WriteTime s d with
      | some (loadRenderTime, _), some (writeTime, _) =>
        some (goAdd loadRenderTime writeTime, none)
      | _, _ => none

/-- The seven time accessors of a `Document`. -/
inductive TimeAccessor where
  | ReadTime | ParseTime | LoadTime | RenderTime | LoadRenderTime | WriteTime | TotalTime
  deriving DecidableEq, Repr

/-- Call of a time accessor, selected by name. -/
def TimeAccessor.call (acc : TimeAccessor) (s : Store) (d : DocPtr) :
    Option (Int × Option NotMonitoredError) :=
  match acc with
  | .ReadTime => Asciidocgo.ReadTime s d
  | .ParseTime => Asciidocgo.ParseTime s d
  | .LoadTime => Asciidocgo.LoadTime s d
  | .RenderTime => Asciidocgo.RenderTime s d
  | .LoadRenderTime => Asciidocgo.LoadRenderTime s d
  | .WriteTime => Asciidocgo.WriteTime s d
  | .TotalTime => Asciidocgo.TotalTime s d

/-- The operations of `document.go` that take a `*Document` receiver. -/
inductive Op where
  | IsMonitored
  | Monitor
  | Time (acc : TimeAccessor)
  deriving DecidableEq, Repr

/-- The store left by an operation on the receiver `d`.  `Monitor` is the only
method whose body assigns; the others return the store they were given. -/
def Op.exec (op : Op) (s : Store) (d : DocPtr) : Option Store :=
  match op with
  | .IsMonitored => (Asciidocgo.IsMonitored s d).map (fun _ => s)
  | .Monitor => (Asciidocgo.Monitor s d).map (fun r => r.1)
  | .Time acc => (acc.call s d).map (fun _ => s)

/-! ## The regexp library (model of Go's `regexp` for the syntax the catalog uses)

The catalog is written in RE2 syntax and compiled with `regexp.Compile`, so a
match is the leftmost one and, among those, the one a backtracking search
finds first.  The embedding covers literals, `.`, bracketed classes, `^`, `$`,
groups (capturing and `(?:`), alternation and the repetition operators `*`,
`+`, `?`, `{n}`, `{n,}`, `{n,m}` with their lazy forms; every other construct
is reported as outside the fragment.  An iteration of a repetition that
consumes no input ends the repetition.
-/

/-- The syntax tree of a regular expression. -/
inductive Regex where
  | empty
  | char (c : Char)
  | any
  | cls (negated : Bool) (ranges : List (Char × Char))
  | bol
  | eol
  | cat (a b : Regex)
  | alt (a b : Regex)
  | rep (r : Regex) (min : Nat) (max : Option Nat) (greedy : Bool)
  | group (index : Nat) (r : Regex)
  deriving DecidableEq, Repr

/-- A position of the matcher in the text: the number of characters before it,
the characters after it, and the text of the groups closed so far (the latest
binding of a group first). -/
structure MState where
  pos : Nat
  rest : List Char
  caps : List (Nat × List Char)
  deriving DecidableEq, Repr

/-- Membership of a character in the ranges of a bracketed class. -/
def inRanges (ranges : List (Char × Char)) (c : Char) : Bool :=
  ranges.any (fun r => decide (r.1.toNat ≤ c.toNat) && decide (c.toNat ≤ r.2.toNat))

/-- Consume one character that satisfies `p`. -/
def stepChar (p : Char → Bool) (s : MState) : List MState :=
  match s.rest with
  | [] => []
  | c :: cs => if p c then [{ s with pos := s.pos + 1, rest := cs }] else []

/-- Exactly `n` iterations of `step`. -/
def iterExact (step : MState → List MState) : Nat → MState → List MState
  | 0, s => [s]
  | n + 1, s => (step s).flatMap (iterExact step n)

/-- At most `n` further iterations of `step`, more iterations first when greedy. -/
def iterUpTo (step : MState → List MState) (greedy : Bool) : Nat → MState → List MState
  | 0, s => [s]
  | n + 1, s =>
    let more := (step s).flatMap (iterUpTo step greedy n)
    if greedy then more ++ [s] else s :: more

/-- Any number of further iterations of `step`, each consuming input; the
bound `n` is the length of the remaining text. -/
def iterStar (step : MState → List MState) (greedy : Bool) : Nat → MState → List MState
  | 0, s => [s]
  | n + 1, s =>
    let more := ((step s).filter (fun e => decide (e.rest.length < s.rest.length))).flatMap
      (iterStar step greedy n)
    if greedy then more ++ [s] else s :: more

/-- All the ways `r` matches at the position `s`, in the order of preference of
a backtracking search: the first one is the match Go reports. -/
def Regex.run : Regex → MState → List MState
  | .empty, s => [s]
  | .char c, s => stepChar (fun x => x == c) s
  | .any, s => stepChar (fun x => x != '\n') s
  | .cls negated ranges, s => stepChar (fun x => inRanges ranges x != negated) s
  | .bol, s => if s.pos = 0 then [s] else []
  | .eol, s => if s.rest.isEmpty then [s] else []
  | .cat a b, s => (a.run s).flatMap (fun m => b.run m)
  | .alt a b, s => a.run s ++ b.run s
  | .rep r min max greedy, s =>
    (iterExact (fun m => r.run m) min s).flatMap (fun m =>
      match max with
      | none => iterStar (fun m => r.run m) greedy m.rest.length m
      | some n => iterUpTo (fun m => r.run m) greedy (n - min) m)
  | .group index r, s =>
    (r.run s).map (fun e => { e with caps := (index, s.rest.take (e.pos - s.pos)) :: e.caps })

/-- The leftmost match: the start position and the preferred end position. -/
def Regex.search (re : Regex) : Nat → List Char → Option (MState × MState)
  | pos, [] => ((re.run ⟨pos, [], []⟩).head?).map (fun e => (⟨pos, [], []⟩, e))
  | pos, c :: cs =>
    match (re.run ⟨pos, c :: cs, []⟩).head? with
    | some e => some (⟨pos, c :: cs, []⟩, e)
    | none => Regex.search re (pos + 1) cs

/-- A compiled expression, the `*regexp.Regexp` of Go. -/
structure Regexp where
  expr : String
  prog : Regex
  numSubexp : Nat
  deriving DecidableEq, Repr

/-- The method `func (re *Regexp) MatchString(s string) bool`. -/
def Regexp.MatchString (re : Regexp) (s : String) : Bool :=
  (re.prog.search 0 s.toList).isSome

/-- The text of group `i` at the end of a match; an unset group gives "". -/
def groupText (caps : List (Nat × List Char)) (i : Nat) : String :=
  match caps.lookup i with
  | some cs => String.mk cs
  | none => ""

/-- The method `func (re *Regexp) FindStringSubmatch(s string) []string`: the text of
the leftmost match followed by the text of each group; `none` is the nil slice
returned when there is no match. -/
def Regexp.FindStringSubmatch (re : Regexp) (s : String) : Option (List String) :=
  match re.prog.search 0 s.toList with
  | none => none
  | some (b, e) =>
    some (String.mk (b.rest.take (e.pos - b.pos)) ::
      (List.range re.numSubexp).map (fun i => groupText e.caps (i + 1)))

/-! ### Parsing an expression, after `regexp/syntax.Parse` -/

/-- An open parenthesis: its group number when it captures, and the
alternatives and the concatenation of the enclosing level, latest first. -/
structure Frame where
  capture : Option Nat
  alts : List Regex
  items : List Regex
  deriving Repr

/-- The state of the parser: the open parentheses, the finished alternatives
and the items of the current concatenation (latest first), the number of
capturing groups opened, and whether the last item may take a repetition. -/
structure PState where
  stack : List Frame
  alts : List Regex
  items : List Regex
  ncap : Nat
  canRepeat : Bool
  deriving Repr

/-- Concatenation of the items, in source order. -/
def mkCat : List Regex → Regex
  | [] => .empty
  | [r] => r
  | r :: rs => .cat r (mkCat rs)

/-- Alternation of the alternatives, in source order. -/
def mkAlt : List Regex → Regex
  | [] => .empty
  | [r] => r
  | r :: rs => .alt r (mkAlt rs)

/-- The expression of the current level: its alternatives, the last of which is
the concatenation being built. -/
def PState.close (st : PState) : Regex :=
  mkAlt ((mkCat st.items.reverse :: st.alts).reverse)

/-- The character denoted by `\c`. -/
def parseEscape (c : Char) : Except String Char :=
  if c == 't' then .ok '\t'
  else if c == 'n' then .ok '\n'
  else if c == 'r' then .ok '\r'
  else if c == 'f' then .ok (Char.ofNat 12)
  else if c == 'v' then .ok (Char.ofNat 11)
  else if c == 'a' then .ok (Char.ofNat 7)
  else if c.toNat < 128 && !c.isAlphanum then .ok c
  else .error "escape sequence outside the embedded fragment"

/-- The value of a run of decimal digits. -/
def digitsValue (ds : List Char) : Nat :=
  ds.foldl (fun n d => 10 * n + (d.toNat - '0'.toNat)) 0

/-- A decimal number at the head of the input, without a superfluous leading zero. -/
def parseInt (cs : List Char) : Option (Nat × List Char) :=
  match cs.span Char.isDigit with
  | ([], _) => none
  | (['0'], rest) => some (0, rest)
  | ('0' :: _, _) => none
  | (ds, rest) => some (digitsValue ds, rest)

/-- The bounds of a counted repetition, read after its opening brace: `n}`,
`n,}` or `n,m}`.  `none` when the text is not of that form, in which case the
brace is a literal. -/
def parseRepeat (cs : List Char) : Option (Nat × Option Nat × List Char) :=
  match parseInt cs with
  | none => none
  | some (min, rest) =>
    match rest with
    | '}' :: rest1 => some (min, some min, rest1)
    | ',' :: '}' :: rest1 => some (min, none, rest1)
    | ',' :: rest1 =>
      match parseInt rest1 with
      | some (max, '}' :: rest2) => some (min, some max, rest2)
      | _ => none
    | _ => none

/-- One character of a bracketed class, literal or escaped. -/
def parseClassChar (cs : List Char) : Except String (Char × List Char) :=
  match cs with
  | [] => .error "missing closing ]"
  | '\\' :: [] => .error "trailing backslash at end of expression"
  | '\\' :: e :: rest => (parseEscape e).map (fun c => (c, rest))
  | '[' :: ':' :: _ => .error "named class outside the embedded fragment"
  | c :: rest => .ok (c, rest)

/-- The ranges of a bracketed class, read up to the closing bracket.  A `]`
right after the opening is a literal, and so is a `-` that starts no range. -/
def parseClassItems : Nat → List Char → Bool → List (Char × Char) →
    Except String (List (Char × Char) × List Char)
  | 0, _, _, _ => .error "missing closing ]"
  | _ + 1, [], _, _ => .error "missing closing ]"
  | fuel + 1, c :: cs, first, acc =>
    if c == ']' && !first then .ok (acc.reverse, cs)
    else
      match parseClassChar (c :: cs) with
      | .error e => .error e
      | .ok (lo, rest) =>
        match rest with
        | '-' :: ']' :: _ => parseClassItems fuel rest false ((lo, lo) :: acc)
        | '-' :: rest1 =>
          match parseClassChar rest1 with
          | .error e => .error e
          | .ok (hi, rest2) =>
            if hi.toNat < lo.toNat then .error "invalid character class range"
            else parseClassItems fuel rest2 false ((lo, hi) :: acc)
        | _ => parseClassItems fuel rest false ((lo, lo) :: acc)

/-- A bracketed class, read after its opening bracket. -/
def parseClass (cs : List Char) : Except String (Regex × List Char) :=
  match cs with
  | '^' :: rest =>
    (parseClassItems rest.length rest true []).map (fun r => (.cls true r.1, r.2))
  | _ => (parseClassItems cs.length cs true []).map (fun r => (.cls false r.1, r.2))

/-- Append an item to the current concatenation. -/
def PState.push (st : PState) (r : Regex) : PState :=
  { st with items := r :: st.items, canRepeat := true }

/-- Apply a repetition operator to the last item; `rest` is the input after the
operator, where a `?` makes it lazy. -/
def PState.repeatLast (st : PState) (min : Nat) (max : Option Nat) (rest : List Char) :
    Except String (PState × List Char) :=
  match st.items with
  | [] => .error "missing argument to repetition operator"
  | r :: rs =>
    if !st.canRepeat then .error "invalid nested repetition operator"
    else if min > 1000 || (match max with | some n => decide (n > 1000 ∨ n < min) | none => false)
    then .error "invalid repeat count"
    else
      match rest with
      | '?' :: rest1 =>
        .ok ({ st with items := .rep r min max false :: rs, canRepeat := false }, rest1)
      | _ => .ok ({ st with items := .rep r min max true :: rs, canRepeat := false }, rest)

/-- The parser: one pass over the characters of the expression, with a stack
of the open parentheses.  `fuel` bounds the number of steps; each step consumes
a character, so the length of the input plus one is enough. -/
def parseLoop : Nat → List Char → PState → Except String (Regex × Nat)
  | 0, _, _ => .error "expression too long"
  | _ + 1, [], st =>
    if st.stack.isEmpty then .ok (st.close, st.ncap) else .error "missing closing )"
  | fuel + 1, c :: cs, st =>
    if c == '(' then
      match cs with
      | '?' :: ':' :: rest =>
        parseLoop fuel rest
          { st with stack := ⟨none, st.alts, st.items⟩ :: st.stack, alts := [], items := [],
                    canRepeat := false }
      | '?' :: _ => .error "invalid or unsupported Perl syntax"
      | _ =>
        parseLoop fuel cs
          { stack := ⟨some (st.ncap + 1), st.alts, st.items⟩ :: st.stack, alts := [], items := [],
            ncap := st.ncap + 1, canRepeat := false }
    else if c == ')' then
      match st.stack with
      | [] => .error "unexpected )"
      | f :: stack =>
        let inner := match f.capture with
          | some i => Regex.group i st.close
          | none => st.close
        parseLoop fuel cs
          { st with stack := stack, alts := f.alts, items := inner :: f.items, canRepeat := true }
    else if c == '|' then
      parseLoop fuel cs
        { st with alts := mkCat st.items.reverse :: st.alts, items := [], canRepeat := false }
    else if c == '*' then
      match st.repeatLast 0 none cs with
      | .error e => .error e
      | .ok (st1, rest) => parseLoop fuel rest st1
    else if c == '+' then
      match st.repeatLast 1 none cs with
      | .error e => .error e
      | .ok (st1, rest) => parseLoop fuel rest st1
    else if c == '?' then
      match st.repeatLast 0 (some 1) cs with
      | .error e => .error e
      | .ok (st1, rest) => parseLoop fuel rest st1
    else if c == '{' then
      match parseRepeat cs with
      | none => parseLoop fuel cs (st.push (.char c))
      | some (min, max, rest) =>
        match st.repeatLast min max rest with
        | .error e => .error e
        | .ok (st1, rest1) => parseLoop fuel rest1 st1
    else if c == '[' then
      match parseClass cs with
      | .error e => .error e
      | .ok (r, rest) => parseLoop fuel rest (st.push r)
    else if c == '.' then parseLoop fuel cs (st.push .any)
    else if c == '^' then parseLoop fuel cs (st.push .bol)
    else if c == '$' then parseLoop fuel cs (st.push .eol)
    else if c == '\\' then
      match cs with
      | [] => .error "trailing backslash at end of expression"
      | e :: rest =>
        match parseEscape e with
        | .error err => .error err
        | .ok x => parseLoop fuel rest (st.push (.char x))
    else parseLoop fuel cs (st.push (.char c))

/-- The function `func Compile(expr string) (*Regexp, error)` of package `regexp`. -/
def Regexp.Compile (expr : String) : Except String Regexp :=
  match parseLoop (expr.length + 1) expr.toList ⟨[], [], [], 0, false⟩ with
  | .error e =>
    .error ("error parsing regexp: " ++ e ++ ": " ++ expr)
  | .ok (prog, n) => .ok ⟨expr, prog, n⟩

/-! ## asciidocgo.go -/

/-- A Go `map[string]T`: an association list in which a key occurs once. -/
abbrev GoMap (α : Type) := List (String × α)

/-- The keys of a map. -/
def GoMap.keys {α : Type} (m : GoMap α) : List String := m.map (fun kv => kv.1)

/-- The map read `m[key]`, with `none` for an absent key. -/
def GoMap.get {α : Type} (m : GoMap α) (key : String) : Option α := m.lookup key

/-- The map assignment `m[key] = value`. -/
def GoMap.set {α : Type} : GoMap α → String → α → GoMap α
  | [], key, value => [(key, value)]
  | (k, v) :: m, key, value =>
    if k == key then (k, value) :: m else (k, v) :: GoMap.set m key value

/-- The function `fmt.Sprintf` for the verb `%v` applied to strings, over the
characters of the format. -/
def sprintfAux : List Char → List String → List Char
  | [], _ => []
  | '%' :: 'v' :: cs, [] => "%!v(MISSING)".toList ++ sprintfAux cs []
  | '%' :: 'v' :: cs, a :: args => a.toList ++ sprintfAux cs args
  | c :: cs, args => c :: sprintfAux cs args

/-- The function `fmt.Sprintf`, for a format whose verbs are all `%v` and whose
arguments are strings, as many as there are verbs. -/
def Sprintf (format : String) (args : List String) : String :=
  String.mk (sprintfAux format.toList args)

/-- The function `func LoadString(input string) *Document`. -/
def LoadString (_input : String) : DocPtr := none

/-- The function `func LoadStrings(inputs ...string) *Document`. -/
def LoadStrings (_inputs : List String) : DocPtr := none

/-- The function `func Load(input io.Reader) *Document`, for any type of reader. -/
def Load {Reader : Type} (_input : Reader) : DocPtr := none

def CC_ALPHA : String := "a-zA-Z"

def CC_ALNUM : String := "a-zA-Z0-9"

def CC_BLANK : String := "[ \\t]"

def CC_GRAPH : String := "[\\x21-\\x7E]"

def CC_EOL : String := "(?=\\n|$)"

/-- Modelled from the spec: the method `Mult` of `utils.Arr`, whose package is
not part of the sources; it joins the elements with the separator, as the Ruby
original `ADMONITION_STYLES.to_a * '|'` does. -/
def Arr.Mult (a : List String) (sep : String) : String := sep.intercalate a

def ADMONITION_STYLES : List String := ["NOTE", "TIP", "IMPORTANT", "WARNING", "CAUTION"]

/-- The table `var REGEXP_STRING = map[string]string{...}`. -/
def REGEXP_STRING : GoMap String :=
  [(":admonition_inline",
      Sprintf "^(%v):%v" [Arr.Mult ADMONITION_STYLES "|", CC_BLANK]),
   (":uri_sniff",
      Sprintf "^([%v][%v.+-]*:/{0,2}).*" [CC_ALPHA, CC_ALNUM])]

/-- The loop of `iniREGEXP` over the entries not yet visited, with the result
built so far. -/
def iniREGEXPLoop (compile : String → Except String Regexp) :
    GoMap String → GoMap Regexp → Except String (GoMap Regexp)
  | [], res => .ok res
  | (key, regexpString) :: rest, res =>
    match compile regexpString with
    | .error err =>
      .error (Sprintf "iniREGEXP should compile all REGEXP_STRING like %v: %v"
        [regexpString, err])
    | .ok regexp => iniREGEXPLoop compile rest (res.set key regexp)

/-- The function `func iniREGEXP(regexps map[string]string) map[string]*regexp.Regexp`;
`compile` is `regexp.Compile`, and an error result is the panic with its message. -/
def iniREGEXP (compile : String → Except String Regexp) (regexps : GoMap String) :
    Except String (GoMap Regexp) :=
  iniREGEXPLoop compile regexps []

/-- The package variable `var REGEXP = iniREGEXP(REGEXP_STRING)`. -/
def REGEXP : Except String (GoMap Regexp) := iniREGEXP Regexp.Compile REGEXP_STRING

/-- The pattern that the comments above `REGEXP_STRING` and `REGEXP` document. -/
def bracketPattern : String := "(?:\\[((?:\\\\\\]|[^\\]])*?)\\])"

/-! ## Two stores used as concrete inputs -/

/-- A store holding one unmonitored document. -/
def exStore0 : Store := [⟨none, ["= Doc Title"], [(":safe", "secure")]⟩]

/-- A store holding one monitored document with recorded times 1, 2, 3, 4. -/
def exStore1 : Store := [⟨some ⟨1, 2, 3, 4⟩, ["= Doc Title"], [(":safe", "secure")]⟩]

/-- The text of the error a time accessor returns, read with `Error()`; `none`
when the call panics or the error is nil. -/
def TimeAccessor.errorText (acc : TimeAccessor) (s : Store) (d : DocPtr) : Option String :=
  match acc.call s d with
  | some (_, some e) => some e.Error
  | _ => none

/-- The name of the quantity each accessor returns, as its result parameter
spells it in the source. -/
def TimeAccessor.quantity : TimeAccessor → String
  | .ReadTime => "readTime"
  | .ParseTime => "parseTime"
  | .LoadTime => "loadTime"
  | .RenderTime => "renderTime"
  | .LoadRenderTime => "loadRenderTime"
  | .WriteTime => "writeTime"
  | .TotalTime => "totalTime"

/-- Whether the text starts with `No <quantity>:` for the quantity of the accessor. -/
def TimeAccessor.namesOwnQuantity (acc : TimeAccessor) (text : String) : Bool :=
  ("No " ++ acc.quantity ++ ":").toList.isPrefixOf text.toList

/-! ## The syntax trees of the catalog -/

/-- The expression of a literal word. -/
def lit (w : List Char) : Regex := mkCat (w.map Regex.char)

/-- The syntax tree of the `:admonition_inline` expression after the `^`. -/
def admonitionBody : Regex :=
  .cat (.group 1 (mkAlt (ADMONITION_STYLES.map (fun w => lit w.toList))))
    (.cat (.char ':') (.cls false [(' ', ' '), ('\t', '\t')]))

/-- The class `[a-zA-Z0-9.+-]` of the `:uri_sniff` expression. -/
def schemeRanges : List (Char × Char) :=
  [('a', 'z'), ('A', 'Z'), ('0', '9'), ('.', '.'), ('+', '+'), ('-', '-')]

/-- The syntax tree inside group 1 of the `:uri_sniff` expression. -/
def uriGroup : Regex :=
  .cat (.cls false [('a', 'z'), ('A', 'Z')])
    (.cat (.rep (.cls false schemeRanges) 0 none true)
      (.cat (.char ':') (.rep (.char '/') 0 (some 2) true)))

/-- The syntax tree of the `:uri_sniff` expression after the `^`. -/
def uriBody : Regex := .cat (.group 1 uriGroup) (.rep .any 0 none true)

/-- The compiled `:admonition_inline` pattern. -/
def admonitionInline : Regexp :=
  ⟨"^(NOTE|TIP|IMPORTANT|WARNING|CAUTION):[ \\t]", .cat .bol admonitionBody, 1⟩

/-- The compiled `:uri_sniff` pattern. -/
def uriSniff : Regexp :=
  ⟨"^([a-zA-Z][a-zA-Z0-9.+-]*:/{0,2}).*", .cat .bol uriBody, 1⟩

/-- The characters the spec allows after the first letter of a URI scheme:
letters, digits, `.`, `+` and `-`. -/
def SpecSchemeChar (c : Char) : Bool :=
  c.isAlpha || c.isDigit || c == '.' || c == '+' || c == '-'

/-- The slashes that group 1 of `:uri_sniff` takes after the colon: those that
follow it immediately, two at most. -/
def leadingSlashes (tail : List Char) : List Char :=
  (tail.takeWhile (fun x => x == '/')).take 2

/-! ## Facts about the store and Go integers -/

theorem wrapInt_add_left (a b : Int) : wrapInt (wrapInt a + b) = wrapInt (a + b) := by
  unfold wrapInt intSize
  norm_num
  omega

theorem deref_some_iff {s : Store} {d : DocPtr} {doc : Document} :
    deref s d = some doc ↔ ∃ a, d = some a ∧ s[a]? = some doc := by
  cases d with
  | none => simp [deref]
  | some a => simp [deref]

theorem isMonitored_of_deref {s : Store} {d : DocPtr} {doc : Document}
    (h : deref s d = some doc) : IsMonitored s d = some (doc.monitorData != none) := by
  simp [IsMonitored, h]

theorem deref_set_self {s : Store} {a : Nat} {doc doc' : Document}
    (h : s[a]? = some doc) : deref (s.set a doc') (some a) = some doc' := by
  have hlt : a < s.length := by
    rcases List.getElem?_eq_some_iff.mp h with ⟨hlt, _⟩
    exact hlt
  simp [deref, List.getElem?_set, hlt]

theorem deref_set_other {s : Store} {a : Nat} {doc' : Document} {q : DocPtr}
    (hq : q ≠ some a) : deref (s.set a doc') q = deref s q := by
  cases q with
  | none => rfl
  | some b =>
    have hne : a ≠ b := fun e => hq (by rw [e])
    simp [deref, List.getElem?_set, hne]

theorem monitor_of_deref {s : Store} {d : DocPtr} {doc : Document}
    (h : deref s d = some doc) :
    ∃ s', Monitor s d = some (s', d) ∧ IsMonitored s' d = some true := by
  obtain ⟨a, rfl, ha⟩ := deref_some_iff.mp h
  rcases doc with ⟨md, data, options⟩
  cases md with
  | none =>
    refine ⟨s.set a ⟨some ⟨0, 0, 0, 0⟩, data, options⟩, by simp [Monitor, ha], ?_⟩
    simp [IsMonitored, deref_set_self ha]
  | some m =>
    exact ⟨s, by simp [Monitor, ha], by simp [IsMonitored, h]⟩

theorem monitor_of_isMonitored {s : Store} {d : DocPtr} (h : IsMonitored s d = some true) :
    Monitor s d = some (s, d) := by
  cases hd : deref s d with
  | none => simp [IsMonitored, hd] at h
  | some doc =>
    obtain ⟨a, rfl, ha⟩ := deref_some_iff.mp hd
    rcases doc with ⟨md, data, options⟩
    cases md with
    | none => simp [IsMonitored, hd] at h
    | some m => simp [Monitor, ha]

theorem time_call_of_deref (acc : TimeAccessor) {s : Store} {d : DocPtr} {doc : Document}
    (h : deref s d = some doc) :
    ∃ t err, acc.call s d = some (t, err) ∧
      (err ≠ none ↔ IsMonitored s d = some false) ∧ (err ≠ none → t = 0) := by
  have hm := isMonitored_of_deref h
  rcases doc with ⟨md, data, options⟩
  cases md with
  | none =>
    cases acc <;>
      simp [TimeAccessor.call, ReadTime, ParseTime, LoadTime, RenderTime, LoadRenderTime,
        WriteTime, TotalTime, hm] <;>
      exact ⟨_, _, ⟨rfl, rfl⟩, by simp, by simp⟩
  | some m =>
    cases acc <;>
      simp [TimeAccessor.call, ReadTime, ParseTime, LoadTime, RenderTime, LoadRenderTime,
        WriteTime, TotalTime, hm, h] <;>
      exact ⟨_, _, ⟨rfl, rfl⟩, by simp, by simp⟩

/-! ## The monitor of a Document -/

/-- C1: each of the seven time accessors, called on a document, returns a
non-nil error exactly when `IsMonitored` is false, and the time returned
together with an error is 0. -/
theorem time_accessor_error_iff_not_monitored (acc : TimeAccessor) (s : Store) (d : DocPtr)
    (doc : Document) (h : deref s d = some doc) :
    ∃ t err, acc.call s d = some (t, err) ∧
      (err ≠ none ↔ IsMonitored s d = some false) ∧ (err ≠ none → t = 0) := by
  exact time_call_of_deref acc h

theorem time_accessor_error_iff_not_monitored_witness :
    deref exStore0 (some 0) = some ⟨none, ["= Doc Title"], [(":safe", "secure")]⟩ ∧
    ∃ t err, TimeAccessor.LoadTime.call exStore0 (some 0) = some (t, err) ∧
      (err ≠ none ↔ IsMonitored exStore0 (some 0) = some false) ∧ (err ≠ none → t = 0) :=
  ⟨rfl, time_accessor_error_iff_not_monitored .LoadTime exStore0 (some 0) _ rfl⟩

/-- C2: on a monitored document every accessor returns a nil error, the
composite times are the Go sums of their parts, and the total is the wrapped
sum of the four recorded times. -/
theorem composite_times_are_sums (s : Store) (d : DocPtr) (h : IsMonitored s d = some true) :
    ∃ doc m, deref s d = some doc ∧ doc.monitorData = some m ∧
      ReadTime s d = some (m.readTime, none) ∧
      ParseTime s d = some (m.parseTime, none) ∧
      RenderTime s d = some (m.renderTime, none) ∧
      WriteTime s d = some (m.writeTime, none) ∧
      LoadTime s d = some (goAdd m.readTime m.parseTime, none) ∧
      LoadRenderTime s d = some (goAdd (goAdd m.readTime m.parseTime) m.renderTime, none) ∧
      TotalTime s d =
        some (goAdd (goAdd (goAdd m.readTime m.parseTime) m.renderTime) m.writeTime, none) ∧
      goAdd (goAdd (goAdd m.readTime m.parseTime) m.renderTime) m.writeTime =
        wrapInt (m.readTime + m.parseTime + m.renderTime + m.writeTime) := by
  cases hd : deref s d with
  | none => simp [IsMonitored, hd] at h
  | some doc =>
    rcases doc with ⟨md, data, options⟩
    cases md with
    | none => simp [IsMonitored, hd] at h
    | some m =>
      refine ⟨_, m, rfl, rfl, ?_⟩
      have hR : ReadTime s d = some (m.readTime, none) := by simp [ReadTime, h, hd]
      have hP : ParseTime s d = some (m.parseTime, none) := by simp [ParseTime, h, hd]
      have hRn : RenderTime s d = some (m.renderTime, none) := by simp [RenderTime, h, hd]
      have hW : WriteTime s d = some (m.writeTime, none) := by simp [WriteTime, h, hd]
      have hL : LoadTime s d = some (goAdd m.readTime m.parseTime, none) := by
        simp [LoadTime, h, hR, hP]
      have hLR : LoadRenderTime s d =
          some (goAdd (goAdd m.readTime m.parseTime) m.renderTime, none) := by
        simp [LoadRenderTime, h, hL, hRn]
      have hT : TotalTime s d =
          some (goAdd (goAdd (goAdd m.readTime m.parseTime) m.renderTime) m.writeTime, none) := by
        simp [TotalTime, h, hLR, hW]
      refine ⟨hR, hP, hRn, hW, hL, hLR, hT, ?_⟩
      simp only [goAdd, wrapInt_add_left]

theorem composite_times_are_sums_witness :
    IsMonitored exStore1 (some 0) = some true ∧
    TotalTime exStore1 (some 0) = some (10, none) := by
  refine ⟨rfl, ?_⟩
  obtain ⟨doc, m, hd, hm, -, -, -, -, -, -, hT, -⟩ :=
    composite_times_are_sums exStore1 (some 0) rfl
  have e : doc = ⟨some ⟨1, 2, 3, 4⟩, ["= Doc Title"], [(":safe", "secure")]⟩ := by
    have : deref exStore1 (some 0) = some ⟨some ⟨1, 2, 3, 4⟩, ["= Doc Title"], [(":safe", "secure")]⟩ := rfl
    rw [this] at hd
    exact (Option.some.inj hd).symm
  subst e
  have e2 : m = ⟨1, 2, 3, 4⟩ := (Option.some.inj hm).symm
  subst e2
  rw [hT]
  decide

/-- C3: `Monitor`, called on any document, returns the receiver itself, and
the document is monitored afterwards. -/
theorem monitor_returns_self_and_monitors (s : Store) (d : DocPtr) (doc : Document)
    (h : deref s d = some doc) :
    ∃ s', Monitor s d = some (s', d) ∧ IsMonitored s' d = some true := by
  exact monitor_of_deref h

theorem monitor_returns_self_and_monitors_witness :
    deref exStore0 (some 0) = some ⟨none, ["= Doc Title"], [(":safe", "secure")]⟩ ∧
    ∃ s', Monitor exStore0 (some 0) = some (s', some 0) ∧ IsMonitored s' (some 0) = some true :=
  ⟨rfl, monitor_returns_self_and_monitors exStore0 (some 0) _ rfl⟩

/-- C4: `Monitor` on an already monitored document leaves the store as it was,
so the document and its four recorded times keep their values; and after a
first `Monitor` a second one changes nothing. -/
theorem monitor_noop_when_monitored (s : Store) (d : DocPtr) (doc : Document)
    (h : deref s d = some doc) :
    (IsMonitored s d = some true →
      Monitor s d = some (s, d) ∧
      ∀ s' p, Monitor s d = some (s', p) →
        deref s' p = some doc ∧ ∀ acc : TimeAccessor, acc.call s' p = acc.call s d) ∧
    (∃ s', Monitor s d = some (s', d) ∧ Monitor s' d = some (s', d)) := by
  refine ⟨fun hmon => ⟨monitor_of_isMonitored hmon, ?_⟩, ?_⟩
  · intro s' p hsp
    rw [monitor_of_isMonitored hmon] at hsp
    obtain ⟨rfl, rfl⟩ := Prod.mk.inj (Option.some.inj hsp)
    exact ⟨h, fun _ => rfl⟩
  · obtain ⟨t, ht, hmon⟩ := monitor_of_deref h
    exact ⟨t, ht, monitor_of_isMonitored hmon⟩

theorem monitor_noop_when_monitored_witness :
    deref exStore1 (some 0) = some ⟨some ⟨1, 2, 3, 4⟩, ["= Doc Title"], [(":safe", "secure")]⟩ ∧
    IsMonitored exStore1 (some 0) = some true ∧
    Monitor exStore1 (some 0) = some (exStore1, some 0) ∧
    ∃ s', Monitor exStore0 (some 0) = some (s', some 0) ∧ Monitor s' (some 0) = some (s', some 0) :=
  ⟨rfl, rfl, ((monitor_noop_when_monitored exStore1 (some 0) _ rfl).1 rfl).1,
    (monitor_noop_when_monitored exStore0 (some 0) _ rfl).2⟩

/-- C10: no operation on a document (IsMonitored, Monitor, the seven time
accessors) changes its data or its options, nor any other document of the
store; Monitor changes at most the monitorData field. -/
theorem operations_preserve_data_and_options (op : Op) (s : Store) (d : DocPtr)
    (doc : Document) (h : deref s d = some doc) :
    ∃ s' doc', op.exec s d = some s' ∧ deref s' d = some doc' ∧
      doc'.data = doc.data ∧ doc'.options = doc.options ∧
      (∀ q, q ≠ d → deref s' q = deref s q) := by
  cases op with
  | IsMonitored =>
    exact ⟨s, doc, by simp [Op.exec, isMonitored_of_deref h], h, rfl, rfl, fun _ _ => rfl⟩
  | Time acc =>
    obtain ⟨t, err, hc, -⟩ := time_call_of_deref acc h
    exact ⟨s, doc, by simp [Op.exec, hc], h, rfl, rfl, fun _ _ => rfl⟩
  | Monitor =>
    obtain ⟨a, rfl, ha⟩ := deref_some_iff.mp h
    rcases doc with ⟨md, data, options⟩
    cases md with
    | none =>
      refine ⟨s.set a ⟨some ⟨0, 0, 0, 0⟩, data, options⟩, _, by simp [Op.exec, Monitor, ha],
        deref_set_self ha, rfl, rfl, ?_⟩
      intro q hq
      exact deref_set_other hq
    | some m =>
      exact ⟨s, _, by simp [Op.exec, Monitor, ha], h, rfl, rfl, fun _ _ => rfl⟩

theorem operations_preserve_data_and_options_witness :
    deref exStore0 (some 0) = some ⟨none, ["= Doc Title"], [(":safe", "secure")]⟩ ∧
    ∃ s' doc', Op.Monitor.exec exStore0 (some 0) = some s' ∧ deref s' (some 0) = some doc' ∧
      doc'.data = ["= Doc Title"] ∧ doc'.options = [(":safe", "secure")] ∧
      (∀ q, q ≠ some 0 → deref s' q = deref exStore0 q) :=
  ⟨rfl, operations_preserve_data_and_options .Monitor exStore0 (some 0) _ rfl⟩

theorem goAdd_zero_zero : goAdd 0 0 = 0 := by decide

theorem deref_newDocument (s : Store) (data : List String) (options : List (String × String)) :
    deref (NewDocument s data options).1 (NewDocument s data options).2 =
      some ⟨none, data, options⟩ := by
  simp [NewDocument, deref]

theorem time_call_not_monitored (acc : TimeAccessor) {s : Store} {d : DocPtr}
    {data : List String} {options : List (String × String)}
    (h : deref s d = some ⟨none, data, options⟩) :
    ∃ err, acc.call s d = some (0, some err) := by
  have hm := isMonitored_of_deref h
  cases acc <;>
    simp [TimeAccessor.call, ReadTime, ParseTime, LoadTime, RenderTime, LoadRenderTime,
      WriteTime, TotalTime, hm]

theorem time_call_monitored (acc : TimeAccessor) {s : Store} {d : DocPtr} {m : monitorData}
    {data : List String} {options : List (String × String)}
    (h : deref s d = some ⟨some m, data, options⟩) :
    acc.call s d = some
      (match acc with
        | .ReadTime => m.readTime
        | .ParseTime => m.parseTime
        | .LoadTime => goAdd m.readTime m.parseTime
        | .RenderTime => m.renderTime
        | .LoadRenderTime => goAdd (goAdd m.readTime m.parseTime) m.renderTime
        | .WriteTime => m.writeTime
        | .TotalTime => goAdd (goAdd (goAdd m.readTime m.parseTime) m.renderTime) m.writeTime,
       none) := by
  have hm := isMonitored_of_deref h
  cases acc <;>
    simp [TimeAccessor.call, ReadTime, ParseTime, LoadTime, RenderTime, LoadRenderTime,
      WriteTime, TotalTime, hm, h]

theorem monitor_newDocument (s : Store) (data : List String)
    (options : List (String × String)) :
    ∃ s'', Monitor (NewDocument s data options).1 (NewDocument s data options).2 =
        some (s'', (NewDocument s data options).2) ∧
      deref s'' (NewDocument s data options).2 = some ⟨some ⟨0, 0, 0, 0⟩, data, options⟩ := by
  have hget : (s ++ [(⟨none, data, options⟩ : Document)])[s.length]? =
      some ⟨none, data, options⟩ := by simp
  refine ⟨(s ++ [(⟨none, data, options⟩ : Document)]).set s.length
    (⟨some ⟨0, 0, 0, 0⟩, data, options⟩ : Document), ?_, ?_⟩
  · simp [NewDocument, Monitor]
  · exact deref_set_self hget

/-- C11: `NewDocument` returns a pointer to a fresh document that holds exactly
the given data and options and is not monitored; the documents already in the
store stay as they were; each of the seven time accessors returns 0 with an
error on it, and after `Monitor` each returns a nil error. -/
theorem newDocument_holds_data_and_is_not_monitored (s : Store) (data : List String)
    (options : List (String × String)) :
    ∃ s' d, NewDocument s data options = (s', d) ∧
      deref s d = none ∧
      (∀ q doc, deref s q = some doc → deref s' q = some doc) ∧
      deref s' d = some ⟨none, data, options⟩ ∧
      IsMonitored s' d = some false ∧
      (∀ acc : TimeAccessor, ∃ err, acc.call s' d = some (0, some err)) ∧
      ∃ s'', Monitor s' d = some (s'', d) ∧
        ∀ acc : TimeAccessor, ∃ t, acc.call s'' d = some (t, none) := by
  have hd := deref_newDocument s data options
  refine ⟨(NewDocument s data options).1, (NewDocument s data options).2, rfl, ?_, ?_, hd,
    ?_, fun acc => time_call_not_monitored acc hd, ?_⟩
  · simp [NewDocument, deref]
  · intro q doc hq
    obtain ⟨a, rfl, ha⟩ := deref_some_iff.mp hq
    have hlt : a < s.length := (List.getElem?_eq_some_iff.mp ha).1
    simp only [NewDocument, deref]
    rw [List.getElem?_append_left hlt]
    exact ha
  · simp [isMonitored_of_deref hd]
  · obtain ⟨s'', hmon, hd''⟩ := monitor_newDocument s data options
    exact ⟨s'', hmon, fun acc => ⟨_, time_call_monitored acc hd''⟩⟩

/-- C12: on a freshly monitored document, `NewDocument(data, options).Monitor()`,
all seven time accessors return 0 with a nil error. -/
theorem fresh_monitor_reports_zero (s : Store) (data : List String)
    (options : List (String × String)) :
    ∃ s' d s'', NewDocument s data options = (s', d) ∧ Monitor s' d = some (s'', d) ∧
      ∀ acc : TimeAccessor, acc.call s'' d = some (0, none) := by
  obtain ⟨s'', hmon, hd''⟩ := monitor_newDocument s data options
  refine ⟨_, _, s'', rfl, hmon, ?_⟩
  intro acc
  refine (time_call_monitored acc hd'').trans ?_
  cases acc <;> simp [goAdd_zero_zero]

/-- C13: the messages of the seven time accessors on an unmonitored document.
ReadTime, ParseTime and LoadTime name their own quantity; RenderTime and
WriteTime both say `No ploadTime:`, LoadRenderTime and TotalTime both say
`No loadTime:`, so four messages do not name their accessor and the seven are
not pairwise distinct. -/
theorem error_messages_on_unmonitored :
    IsMonitored exStore0 (some 0) = some false ∧
    TimeAccessor.ReadTime.errorText exStore0 (some 0) =
      some "No readTime: current document is not monitored" ∧
    TimeAccessor.ParseTime.errorText exStore0 (some 0) =
      some "No parseTime: current document is not monitored" ∧
    TimeAccessor.LoadTime.errorText exStore0 (some 0) =
      some "No loadTime: current document is not monitored" ∧
    TimeAccessor.RenderTime.errorText exStore0 (some 0) =
      some "No ploadTime: current document is not monitored" ∧
    TimeAccessor.LoadRenderTime.errorText exStore0 (some 0) =
      some "No loadTime: current document is not monitored" ∧
    TimeAccessor.WriteTime.errorText exStore0 (some 0) =
      some "No ploadTime: current document is not monitored" ∧
    TimeAccessor.TotalTime.errorText exStore0 (some 0) =
      some "No loadTime: current document is not monitored" ∧
    (∀ acc : TimeAccessor,
      (∃ text, acc.errorText exStore0 (some 0) = some text ∧
        acc.namesOwnQuantity text = true) ↔
      (acc = .ReadTime ∨ acc = .ParseTime ∨ acc = .LoadTime)) := by
  refine ⟨rfl, rfl, rfl, rfl, rfl, rfl, rfl, rfl, ?_⟩
  intro acc
  cases acc
  · exact ⟨fun _ => Or.inl rfl, fun _ => ⟨_, rfl, by decide⟩⟩
  · exact ⟨fun _ => Or.inr (Or.inl rfl), fun _ => ⟨_, rfl, by decide⟩⟩
  · exact ⟨fun _ => Or.inr (Or.inr rfl), fun _ => ⟨_, rfl, by decide⟩⟩
  · refine ⟨?_, fun h => by simp at h⟩
    rintro ⟨text, ht, hn⟩
    have e : text = "No ploadTime: current document is not monitored" :=
      (Option.some.inj ht).symm
    subst e
    exact absurd hn (by decide)
  · refine ⟨?_, fun h => by simp at h⟩
    rintro ⟨text, ht, hn⟩
    have e : text = "No loadTime: current document is not monitored" :=
      (Option.some.inj ht).symm
    subst e
    exact absurd hn (by decide)
  · refine ⟨?_, fun h => by simp at h⟩
    rintro ⟨text, ht, hn⟩
    have e : text = "No ploadTime: current document is not monitored" :=
      (Option.some.inj ht).symm
    subst e
    exact absurd hn (by decide)
  · refine ⟨?_, fun h => by simp at h⟩
    rintro ⟨text, ht, hn⟩
    have e : text = "No loadTime: current document is not monitored" :=
      (Option.some.inj ht).symm
    subst e
    exact absurd hn (by decide)

/-! ## Facts about the matcher -/

theorem mem_stepChar {p : Char → Bool} {s e : MState} :
    e ∈ stepChar p s ↔ ∃ c, p c = true ∧ s.rest = c :: e.rest ∧ e.pos = s.pos + 1 ∧
      e.caps = s.caps := by
  rcases s with ⟨pos, rest, caps⟩
  rcases e with ⟨epos, erest, ecaps⟩
  cases rest with
  | nil => simp [stepChar]
  | cons c cs =>
    by_cases hp : p c = true
    · simp only [stepChar, hp, if_true, List.mem_singleton, MState.mk.injEq, List.cons.injEq]
      constructor
      · rintro ⟨rfl, rfl, rfl⟩
        exact ⟨c, hp, ⟨rfl, rfl⟩, rfl, rfl⟩
      · rintro ⟨c', -, ⟨rfl, rfl⟩, rfl, rfl⟩
        exact ⟨rfl, rfl, rfl⟩
    · have hf : p c = false := by simpa using hp
      simp only [stepChar, hf, Bool.false_eq_true, if_false, List.not_mem_nil, false_iff]
      rintro ⟨c', hp', h1, -⟩
      simp only [List.cons.injEq] at h1
      exact hp (h1.1 ▸ hp')

theorem run_cat (a b : Regex) (s : MState) :
    (Regex.cat a b).run s = (a.run s).flatMap (fun m => b.run m) := rfl

theorem run_alt (a b : Regex) (s : MState) : (Regex.alt a b).run s = a.run s ++ b.run s := rfl

theorem run_char (c : Char) (s : MState) :
    (Regex.char c).run s = stepChar (fun x => x == c) s := rfl

theorem run_cls (negated : Bool) (ranges : List (Char × Char)) (s : MState) :
    (Regex.cls negated ranges).run s = stepChar (fun x => inRanges ranges x != negated) s := rfl

theorem run_group (i : Nat) (r : Regex) (s : MState) :
    (Regex.group i r).run s =
      (r.run s).map (fun e => { e with caps := (i, s.rest.take (e.pos - s.pos)) :: e.caps }) :=
  rfl

theorem run_mkCat_cons (r : Regex) (rs : List Regex) (s : MState) :
    (mkCat (r :: rs)).run s = (r.run s).flatMap (fun m => (mkCat rs).run m) := by
  cases rs with
  | nil => simp [mkCat, Regex.run]
  | cons r' rs' => simp [mkCat, Regex.run]

theorem mem_run_lit (w : List Char) (s e : MState) :
    e ∈ (lit w).run s ↔ s.rest = w ++ e.rest ∧ e.pos = s.pos + w.length ∧ e.caps = s.caps := by
  induction w generalizing s with
  | nil =>
    rcases s with ⟨pos, rest, caps⟩
    rcases e with ⟨epos, erest, ecaps⟩
    simp only [lit, List.map_nil, mkCat, Regex.run, List.mem_singleton, MState.mk.injEq,
      List.nil_append, List.length_nil, Nat.add_zero]
    constructor
    · rintro ⟨rfl, rfl, rfl⟩
      exact ⟨rfl, rfl, rfl⟩
    · rintro ⟨rfl, rfl, rfl⟩
      exact ⟨rfl, rfl, rfl⟩
  | cons c w ih =>
    have hl : lit (c :: w) = mkCat (Regex.char c :: w.map Regex.char) := rfl
    rw [hl, run_mkCat_cons]
    simp only [List.mem_flatMap, Regex.run, mem_stepChar]
    constructor
    · rintro ⟨m, ⟨c', hc, h1, h2, h3⟩, hm⟩
      have := (ih m).mp hm
      obtain ⟨h4, h5, h6⟩ := this
      have hc' : c' = c := by simpa using hc
      subst hc'
      refine ⟨?_, ?_, ?_⟩
      · rw [h1, h4]; rfl
      · rw [h5, h2, List.length_cons]; omega
      · rw [h6, h3]
    · rintro ⟨h1, h2, h3⟩
      refine ⟨⟨s.pos + 1, w ++ e.rest, s.caps⟩, ⟨c, by simp, by simpa using h1, rfl, rfl⟩, ?_⟩
      apply (ih _).mpr
      refine ⟨rfl, ?_, h3⟩
      rw [h2, List.length_cons]
      simp only
      omega

theorem search_bol_pos (r : Regex) (pos : Nat) (l : List Char) (h : 0 < pos) :
    (Regex.cat .bol r).search pos l = none := by
  induction l generalizing pos with
  | nil =>
    have : pos ≠ 0 := by omega
    simp [Regex.search, Regex.run, this]
  | cons c cs ih =>
    have : pos ≠ 0 := by omega
    simp [Regex.search, Regex.run, this, ih (pos + 1) (by omega)]

theorem search_bol_zero (r : Regex) (l : List Char) :
    (Regex.cat .bol r).search 0 l = ((r.run ⟨0, l, []⟩).head?).map (fun e => (⟨0, l, []⟩, e)) := by
  cases l with
  | nil => simp [Regex.search, Regex.run]
  | cons c cs =>
    simp only [Regex.search, Regex.run, if_true, List.flatMap_cons, List.flatMap_nil,
      List.append_nil]
    cases h : (r.run ⟨0, c :: cs, []⟩).head? with
    | none => simp [h, search_bol_pos]
    | some e => simp [h]

theorem char_eq_of_toNat {c d : Char} (h : c.toNat = d.toNat) : c = d := by
  rw [← Char.ofNat_toNat c, h, Char.ofNat_toNat]

theorem inRanges_blank (c : Char) :
    inRanges [(' ', ' '), ('\t', '\t')] c = true ↔ c = ' ' ∨ c = '\t' := by
  have h1 : (' ' : Char).toNat = 32 := rfl
  have h2 : ('\t' : Char).toNat = 9 := rfl
  simp only [inRanges, List.any_cons, List.any_nil, Bool.or_false, Bool.or_eq_true,
    Bool.and_eq_true, decide_eq_true_eq, h1, h2]
  constructor
  · rintro (⟨ha, hb⟩ | ⟨ha, hb⟩)
    · exact Or.inl (char_eq_of_toNat (by rw [h1]; omega))
    · exact Or.inr (char_eq_of_toNat (by rw [h2]; omega))
  · rintro (rfl | rfl)
    · exact Or.inl ⟨by rw [h1], by rw [h1]⟩
    · exact Or.inr ⟨by rw [h2], by rw [h2]⟩

theorem mem_run_mkAlt (rs : List Regex) (h : rs ≠ []) (s e : MState) :
    e ∈ (mkAlt rs).run s ↔ ∃ r ∈ rs, e ∈ r.run s := by
  induction rs with
  | nil => exact absurd rfl h
  | cons r rs ih =>
    cases rs with
    | nil => simp [mkAlt]
    | cons r' rs' =>
      have ih' := ih (by simp)
      simp only [mkAlt, run_alt, List.mem_append, List.mem_cons, exists_eq_or_imp] at ih' ⊢
      rw [ih']

theorem mem_run_admonitionBody (l : List Char) (e : MState) :
    e ∈ admonitionBody.run ⟨0, l, []⟩ ↔
      ∃ kw ∈ ADMONITION_STYLES, ∃ b, (b = ' ' ∨ b = '\t') ∧
        l = kw.toList ++ ':' :: b :: e.rest ∧ e.pos = kw.length + 2 ∧
        e.caps = [(1, kw.toList)] := by
  have hne : ADMONITION_STYLES.map (fun w => lit w.toList) ≠ [] := by
    simp [ADMONITION_STYLES]
  simp only [admonitionBody, run_cat, run_group, run_char, run_cls, List.mem_flatMap,
    List.mem_map, mem_stepChar, mem_run_mkAlt _ hne, mem_run_lit, exists_exists_and_eq_and]
  constructor
  · rintro ⟨m, ⟨kw, hkw, hl, hp, hc⟩, m2, ⟨c, hc1, hr, hp2, hc2⟩, b, hb, hr2, hp3, hc3⟩
    have hcc : c = ':' := by simpa using hc1
    subst hcc
    have hb' : b = ' ' ∨ b = '\t' := (inRanges_blank b).mp (by simpa using hb)
    have hl' : l = kw.toList ++ ':' :: b :: e.rest := by rw [hl, hr, hr2]
    refine ⟨kw, hkw, b, hb', hl', ?_, ?_⟩
    · rw [hp3, hp2, hp]
      simp only [String.length, String.toList]
      omega
    · rw [hc3, hc2, hc, hp, hl']
      simp
  · rintro ⟨kw, hkw, b, hb, hl, hp, hc⟩
    refine ⟨⟨kw.toList.length, ':' :: b :: e.rest, []⟩, ⟨kw, hkw, hl, by simp, rfl⟩,
      ⟨kw.toList.length + 1, b :: e.rest, [(1, kw.toList)]⟩, ⟨':', by simp, rfl, rfl, ?_⟩,
      b, ?_, rfl, ?_, hc⟩
    · simp [hl]
    · simpa using (inRanges_blank b).mpr hb
    · rw [hp]
      simp only [String.length, String.toList]

set_option maxRecDepth 100000 in
theorem REGEXP_eq :
    REGEXP = .ok [(":admonition_inline", admonitionInline), (":uri_sniff", uriSniff)] := by
  rfl

theorem admonition_unique (kw : String) (hkw : kw ∈ ADMONITION_STYLES) (kw' : String)
    (hkw' : kw' ∈ ADMONITION_STYLES) (x y : List Char)
    (h : kw.toList ++ ':' :: x = kw'.toList ++ ':' :: y) : kw = kw' ∧ x = y := by
  simp only [ADMONITION_STYLES, List.mem_cons, List.mem_singleton, List.not_mem_nil,
    or_false] at hkw hkw'
  rcases hkw with rfl | rfl | rfl | rfl | rfl <;>
    rcases hkw' with rfl | rfl | rfl | rfl | rfl <;>
    simp [String.toList] at h ⊢ <;> exact h

theorem char_eq_iff_toNat (c d : Char) : c = d ↔ c.toNat = d.toNat :=
  ⟨fun h => by rw [h], char_eq_of_toNat⟩

theorem inRanges_alpha (c : Char) : inRanges [('a', 'z'), ('A', 'Z')] c = c.isAlpha := by
  have h1 : ('a' : Char).toNat = 97 := rfl
  have h2 : ('z' : Char).toNat = 122 := rfl
  have h3 : ('A' : Char).toNat = 65 := rfl
  have h4 : ('Z' : Char).toNat = 90 := rfl
  simp only [inRanges, List.any_cons, List.any_nil, Bool.or_false, h1, h2, h3, h4,
    Char.isAlpha, Char.isUpper, Char.isLower]
  have e : c.toNat = c.val.toNat := rfl
  simp only [ge_iff_le, UInt32.le_def, BitVec.le_def, e]
  have k1 : (65 : UInt32).toBitVec.toNat = 65 := rfl
  have k2 : (90 : UInt32).toBitVec.toNat = 90 := rfl
  have k3 : (97 : UInt32).toBitVec.toNat = 97 := rfl
  have k4 : (122 : UInt32).toBitVec.toNat = 122 := rfl
  have k5 : c.val.toBitVec.toNat = c.val.toNat := rfl
  rw [k1, k2, k3, k4, k5, Bool.or_comm]

theorem inRanges_scheme (c : Char) : inRanges schemeRanges c = SpecSchemeChar c := by
  have ha := inRanges_alpha c
  have h5 : ('0' : Char).toNat = 48 := rfl
  have h6 : ('9' : Char).toNat = 57 := rfl
  have h7 : ('.' : Char).toNat = 46 := rfl
  have h8 : ('+' : Char).toNat = 43 := rfl
  have h9 : ('-' : Char).toNat = 45 := rfl
  have hd : c.isDigit = (decide (48 ≤ c.toNat) && decide (c.toNat ≤ 57)) := by
    have e : c.toNat = c.val.toNat := rfl
    simp only [Char.isDigit, ge_iff_le, UInt32.le_def, BitVec.le_def, e]
    rfl
  have hdot : (c == '.') = (decide (46 ≤ c.toNat) && decide (c.toNat ≤ 46)) := by
    rw [Bool.eq_iff_iff]
    simp only [beq_iff_eq, Bool.and_eq_true, decide_eq_true_eq, char_eq_iff_toNat c '.', h7]
    omega
  have hplus : (c == '+') = (decide (43 ≤ c.toNat) && decide (c.toNat ≤ 43)) := by
    rw [Bool.eq_iff_iff]
    simp only [beq_iff_eq, Bool.and_eq_true, decide_eq_true_eq, char_eq_iff_toNat c '+', h8]
    omega
  have hminus : (c == '-') = (decide (45 ≤ c.toNat) && decide (c.toNat ≤ 45)) := by
    rw [Bool.eq_iff_iff]
    simp only [beq_iff_eq, Bool.and_eq_true, decide_eq_true_eq, char_eq_iff_toNat c '-', h9]
    omega
  rw [SpecSchemeChar, ← ha, hd, hdot, hplus, hminus]
  simp only [schemeRanges, inRanges, List.any_cons, List.any_nil, Bool.or_false, h5, h6, h7, h8,
    h9, Bool.or_assoc]

theorem stepChar_cons (p : Char → Bool) (pos : Nat) (c : Char) (cs : List Char)
    (caps : List (Nat × List Char)) :
    stepChar p ⟨pos, c :: cs, caps⟩ = if p c then [⟨pos + 1, cs, caps⟩] else [] := rfl

theorem stepChar_nil (p : Char → Bool) (pos : Nat) (caps : List (Nat × List Char)) :
    stepChar p ⟨pos, [], caps⟩ = [] := rfl

theorem run_star (r : Regex) (greedy : Bool) (s : MState) :
    (Regex.rep r 0 none greedy).run s =
      iterStar (fun m => r.run m) greedy s.rest.length s := by
  simp [Regex.run, iterExact]

theorem run_upTo (r : Regex) (n : Nat) (greedy : Bool) (s : MState) :
    (Regex.rep r 0 (some n) greedy).run s = iterUpTo (fun m => r.run m) greedy n s := by
  simp [Regex.run, iterExact]

/-- A state reached by a repetition of single characters satisfying `p` lies
after a run of such characters. -/
theorem mem_iterStar_stepChar {p : Char → Bool} {greedy : Bool} (n : Nat) (s e : MState)
    (h : e ∈ iterStar (stepChar p) greedy n s) :
    ∃ cs, (∀ c ∈ cs, p c = true) ∧ s.rest = cs ++ e.rest := by
  induction n generalizing s with
  | zero =>
    simp only [iterStar, List.mem_singleton] at h
    exact ⟨[], by simp, by rw [h]; rfl⟩
  | succ n ih =>
    have hcase : e = s ∨ ∃ m ∈ stepChar p s, e ∈ iterStar (stepChar p) greedy n m := by
      cases greedy <;>
        simp only [iterStar, if_true, if_false, Bool.false_eq_true, List.mem_append,
          List.mem_cons, List.mem_singleton, List.mem_flatMap, List.mem_filter,
          List.not_mem_nil, or_false] at h
      · rcases h with h | ⟨m, ⟨hm, -⟩, he⟩
        · exact Or.inl h
        · exact Or.inr ⟨m, hm, he⟩
      · rcases h with ⟨m, ⟨hm, -⟩, he⟩ | h
        · exact Or.inr ⟨m, hm, he⟩
        · exact Or.inl h
    rcases hcase with rfl | ⟨m, hm, he⟩
    · exact ⟨[], by simp, rfl⟩
    · obtain ⟨c, hc, hr, -, -⟩ := mem_stepChar.mp hm
      obtain ⟨cs, hcs, hr'⟩ := ih m he
      refine ⟨c :: cs, ?_, by rw [hr, hr']; rfl⟩
      intro x hx
      rcases List.mem_cons.mp hx with rfl | hx
      · exact hc
      · exact hcs x hx

/-- A greedy repetition of a class followed by a character outside the class:
after a run of class characters and that character there is one way on. -/
theorem iterStar_then_char {p : Char → Bool} {β : Type} (d : Char) (hd : p d = false)
    (f : MState → List β) (cs : List Char) (hcs : ∀ c ∈ cs, p c = true) (pos : Nat)
    (tail : List Char) (caps : List (Nat × List Char)) :
    (iterStar (stepChar p) true (cs ++ d :: tail).length ⟨pos, cs ++ d :: tail, caps⟩).flatMap
        (fun m => (stepChar (fun x => x == d) m).flatMap f) =
      f ⟨pos + cs.length + 1, tail, caps⟩ := by
  induction cs generalizing pos with
  | nil =>
    simp [iterStar, stepChar_cons, hd]
  | cons c cs ih =>
    have hc : p c = true := hcs c (List.mem_cons_self _ _)
    have hne : (c == d) = false := by
      rw [beq_eq_false_iff_ne]
      rintro rfl
      rw [hd] at hc
      exact absurd hc (by simp)
    have ih' := ih (fun x hx => hcs x (List.mem_cons_of_mem _ hx)) (pos + 1)
    have hlen : (c :: cs ++ d :: tail).length = (cs ++ d :: tail).length + 1 := rfl
    rw [hlen]
    simp only [List.cons_append, List.length_cons, iterStar, stepChar_cons, hc, if_true,
      List.filter_cons, List.filter_nil, List.flatMap_cons, List.flatMap_nil, List.append_nil,
      Nat.lt_succ_self, decide_True, List.flatMap_append, hne, Bool.false_eq_true, if_false]
    rw [ih']
    congr 2
    omega

theorem head?_flatMap_of_head? {α β : Type} {l : List α} {f : α → List β} {x : α} {y : β}
    (hx : l.head? = some x) (hy : (f x).head? = some y) : (l.flatMap f).head? = some y := by
  cases l with
  | nil => simp at hx
  | cons a as =>
    simp only [List.head?_cons, Option.some.injEq] at hx
    subst hx
    cases hfa : f a with
    | nil => rw [hfa] at hy; simp at hy
    | cons b bs =>
      rw [hfa] at hy
      simp only [List.head?_cons, Option.some.injEq] at hy
      subst hy
      simp [List.flatMap_cons, hfa]

/-- The preferred end of a greedy `.*`: the end of the line. -/
theorem head?_iterStar_any (n : Nat) (pos : Nat) (rest : List Char)
    (caps : List (Nat × List Char)) (hn : rest.length ≤ n) :
    (iterStar (stepChar (fun x => x != '\n')) true n ⟨pos, rest, caps⟩).head? =
      some ⟨pos + (rest.takeWhile (fun x => x != '\n')).length,
        rest.drop (rest.takeWhile (fun x => x != '\n')).length, caps⟩ := by
  induction n generalizing pos rest with
  | zero =>
    have : rest = [] := List.length_eq_zero.mp (Nat.le_zero.mp hn)
    subst this
    simp [iterStar]
  | succ n ih =>
    cases rest with
    | nil => simp [iterStar, stepChar_nil]
    | cons c cs =>
      by_cases hc : (c != '\n') = true
      · have hlen : cs.length ≤ n := by simpa using hn
        have ih' := ih (pos + 1) cs hlen
        have hne : iterStar (stepChar (fun x => x != '\n')) true n ⟨pos + 1, cs, caps⟩ ≠ [] := by
          intro h0
          rw [h0] at ih'
          simp at ih'
        simp only [iterStar, stepChar_cons, hc, if_true, List.filter_cons, List.length_cons,
          Nat.lt_succ_self, decide_True, List.filter_nil, List.flatMap_cons, List.flatMap_nil,
          List.append_nil, List.takeWhile_cons, List.drop_succ_cons]
        rw [List.head?_append_of_ne_nil _ hne, ih']
        congr 2
        omega
      · have hc' : (c != '\n') = false := by simpa using hc
        simp [iterStar, stepChar_cons, hc']

theorem leadingSlashes_append_drop (tail : List Char) :
    leadingSlashes tail ++ tail.drop (leadingSlashes tail).length = tail := by
  have hp : leadingSlashes tail <+: tail :=
    (List.take_prefix _ _).trans (List.takeWhile_prefix _)
  have := List.prefix_iff_eq_take.mp hp
  conv_lhs => rw [this]
  rw [List.length_take_of_le, List.take_append_drop]
  exact hp.length_le

theorem leadingSlashes_not_newline (tail : List Char) :
    ∀ x ∈ leadingSlashes tail, (x != '\n') = true := by
  intro x hx
  have h1 : x ∈ tail.takeWhile (fun x => x == '/') := List.mem_of_mem_take hx
  have h2 := List.mem_takeWhile_imp h1
  have h3 : x = '/' := by simpa using h2
  subst h3
  decide

theorem head?_iterUpTo_slash (pos : Nat) (tail : List Char) (caps : List (Nat × List Char)) :
    (iterUpTo (stepChar (fun x => x == '/')) true 2 ⟨pos, tail, caps⟩).head? =
      some ⟨pos + (leadingSlashes tail).length, tail.drop (leadingSlashes tail).length,
        caps⟩ := by
  cases tail with
  | nil => simp [iterUpTo, stepChar_nil, leadingSlashes]
  | cons c t =>
    by_cases hc : (c == '/') = true
    · cases t with
      | nil => simp [iterUpTo, stepChar_cons, stepChar_nil, leadingSlashes, hc]
      | cons c2 t2 =>
        by_cases hc2 : (c2 == '/') = true
        · simp [iterUpTo, stepChar_cons, leadingSlashes, hc, hc2, List.takeWhile_cons]
        · have hc2' : (c2 == '/') = false := by simpa using hc2
          simp [iterUpTo, stepChar_cons, leadingSlashes, hc, hc2', List.takeWhile_cons]
    · have hc' : (c == '/') = false := by simpa using hc
      simp [iterUpTo, stepChar_cons, leadingSlashes, hc', List.takeWhile_cons]

theorem uriBody_eq : uriBody = .cat (.group 1 uriGroup) (.rep .any 0 none true) := rfl

theorem run_uriGroup (a : Char) (cs tail : List Char) (ha : a.isAlpha = true)
    (hcs : ∀ c ∈ cs, SpecSchemeChar c = true) :
    uriGroup.run ⟨0, a :: (cs ++ ':' :: tail), []⟩ =
      iterUpTo (stepChar (fun x => x == '/')) true 2 ⟨cs.length + 2, tail, []⟩ := by
  have hp : ∀ c ∈ cs, (fun x => inRanges schemeRanges x != false) c = true := by
    intro c hc
    simp [inRanges_scheme, hcs c hc]
  have hd : (fun x => inRanges schemeRanges x != false) ':' = false := by decide
  have key := iterStar_then_char ':' hd
    (fun m => (Regex.rep (.char '/') 0 (some 2) true).run m) cs hp 1 tail []
  have hfirst : (inRanges [('a', 'z'), ('A', 'Z')] a != false) = true := by
    simp [inRanges_alpha, ha]
  simp only [uriGroup, run_cat, run_cls, stepChar_cons, hfirst, if_true, List.flatMap_cons,
    List.flatMap_nil, List.append_nil, run_star, run_char]
  rw [show (0 : Nat) + 1 = 1 from rfl]
  have hstep : (fun m : MState => stepChar (fun x => inRanges schemeRanges x != false) m) =
      stepChar (fun x => inRanges schemeRanges x != false) := rfl
  rw [hstep, key, run_upTo]
  have hs2 : (fun m : MState => (Regex.char '/').run m) = stepChar (fun x => x == '/') := rfl
  rw [hs2]
  congr 2
  omega

theorem head?_run_uriBody (a : Char) (cs tail : List Char) (ha : a.isAlpha = true)
    (hcs : ∀ c ∈ cs, SpecSchemeChar c = true) :
    (uriBody.run ⟨0, a :: (cs ++ ':' :: tail), []⟩).head? =
      some ⟨(a :: (cs ++ ':' :: tail.takeWhile (fun x => x != '\n'))).length,
        tail.dropWhile (fun x => x != '\n'),
        [(1, a :: (cs ++ ':' :: leadingSlashes tail))]⟩ := by
  have hsplit := leadingSlashes_append_drop tail
  have hnl := leadingSlashes_not_newline tail
  generalize hP : leadingSlashes tail = P at hsplit hnl
  generalize hD : tail.drop P.length = D at hsplit
  have htw : tail.takeWhile (fun x => x != '\n') = P ++ D.takeWhile (fun x => x != '\n') := by
    rw [← hsplit]
    exact List.takeWhile_append_of_pos hnl
  have hdw : tail.dropWhile (fun x => x != '\n') =
      D.drop (D.takeWhile (fun x => x != '\n')).length := by
    rw [← hsplit, List.dropWhile_append_of_pos hnl]
    have h := List.drop_left (D.takeWhile (fun x => x != '\n'))
      (D.dropWhile (fun x => x != '\n'))
    rw [List.takeWhile_append_dropWhile] at h
    exact h.symm
  have hg : (uriGroup.run ⟨0, a :: (cs ++ ':' :: tail), []⟩).head? =
      some ⟨cs.length + 2 + P.length, D, []⟩ := by
    rw [run_uriGroup a cs tail ha hcs, head?_iterUpTo_slash, hP, hD]
  have htake : List.take (cs.length + 2 + P.length) (a :: (cs ++ ':' :: tail)) =
      a :: (cs ++ ':' :: P) := by
    have e : a :: (cs ++ ':' :: tail) = (a :: (cs ++ ':' :: P)) ++ D := by
      rw [← hsplit]
      simp
    rw [e]
    apply List.take_left'
    simp
    omega
  rw [uriBody_eq, run_cat, run_group]
  apply head?_flatMap_of_head?
  · rw [List.head?_map, hg]
    rfl
  · rw [run_star]
    have hany : (fun m : MState => Regex.any.run m) = stepChar (fun x => x != '\n') := rfl
    rw [hany]
    simp only [Nat.sub_zero, htake]
    rw [head?_iterStar_any _ _ _ _ (Nat.le_refl _), htw, hdw]
    congr 1
    simp
    omega

/-! ## The patterns of the catalog -/

theorem regexp_get_admonition {m : GoMap Regexp} {re : Regexp} (hm : REGEXP = .ok m)
    (hre : m.get ":admonition_inline" = some re) : re = admonitionInline := by
  rw [REGEXP_eq] at hm
  cases hm
  simpa [GoMap.get, List.lookup] using hre.symm

/-- C5: the `:admonition_inline` pattern matches a line exactly when the line
begins with one of the five keywords followed by a colon and then a space or a
tab, and then group 1 is that keyword (group 0 is the keyword, the colon and
the blank). -/
theorem admonition_inline_matches_iff (m : GoMap Regexp) (re : Regexp)
    (hm : REGEXP = .ok m) (hre : m.get ":admonition_inline" = some re) (line : String) :
    (re.MatchString line = true ↔
      ∃ kw ∈ ADMONITION_STYLES, ∃ b tail, (b = ' ' ∨ b = '\t') ∧
        line.toList = kw.toList ++ ':' :: b :: tail) ∧
    (∀ kw ∈ ADMONITION_STYLES, ∀ b tail, (b = ' ' ∨ b = '\t') →
      line.toList = kw.toList ++ ':' :: b :: tail →
      re.FindStringSubmatch line = some [kw ++ ":" ++ String.singleton b, kw]) := by
  have hre' := regexp_get_admonition hm hre
  subst hre'
  have hs : admonitionInline.prog.search 0 line.toList =
      ((admonitionBody.run ⟨0, line.toList, []⟩).head?).map
        (fun e => (⟨0, line.toList, []⟩, e)) := search_bol_zero _ _
  constructor
  · rw [Regexp.MatchString, hs]
    constructor
    · intro h
      cases hh : (admonitionBody.run ⟨0, line.toList, []⟩).head? with
      | none => rw [hh] at h; exact absurd h (by simp)
      | some e =>
        have hmem := List.mem_of_mem_head? hh
        obtain ⟨kw, hkw, b, hb, hl, -, -⟩ := (mem_run_admonitionBody _ e).mp hmem
        exact ⟨kw, hkw, b, e.rest, hb, hl⟩
    · rintro ⟨kw, hkw, b, tail, hb, hl⟩
      have hmem : (⟨kw.length + 2, tail, [(1, kw.toList)]⟩ : MState) ∈
          admonitionBody.run ⟨0, line.toList, []⟩ :=
        (mem_run_admonitionBody _ _).mpr ⟨kw, hkw, b, hb, hl, rfl, rfl⟩
      cases hh : (admonitionBody.run ⟨0, line.toList, []⟩).head? with
      | none =>
        rw [List.head?_eq_none_iff] at hh
        rw [hh] at hmem
        exact absurd hmem (List.not_mem_nil _)
      | some e => rfl
  · intro kw hkw b tail hb hl
    have hmem : (⟨kw.length + 2, tail, [(1, kw.toList)]⟩ : MState) ∈
        admonitionBody.run ⟨0, line.toList, []⟩ :=
      (mem_run_admonitionBody _ _).mpr ⟨kw, hkw, b, hb, hl, rfl, rfl⟩
    cases hh : (admonitionBody.run ⟨0, line.toList, []⟩).head? with
    | none =>
      rw [List.head?_eq_none_iff] at hh
      rw [hh] at hmem
      exact absurd hmem (List.not_mem_nil _)
    | some e =>
      obtain ⟨kw', hkw', b', hb', hl', hp, hc⟩ :=
        (mem_run_admonitionBody _ e).mp (List.mem_of_mem_head? hh)
      obtain ⟨rfl, -⟩ := admonition_unique kw hkw kw' hkw' _ _ (hl.symm.trans hl')
      have hbe : b' = b := by
        have := hl.symm.trans hl'
        simp only [List.append_cancel_left_eq, List.cons.injEq, true_and] at this
        exact this.1.symm
      subst hbe
      rw [Regexp.FindStringSubmatch, hs, hh]
      simp only [Option.map_some', admonitionInline, hp, hc, hl', Nat.sub_zero]
      have e1 : List.take (kw.length + 2) (kw.toList ++ ':' :: b' :: e.rest) =
          kw.toList ++ [':', b'] := by
        have : kw.length = kw.toList.length := rfl
        rw [this, List.take_append]
        simp
      have e2 : String.mk (kw.toList ++ [':', b']) = kw ++ ":" ++ String.singleton b' := by
        apply String.ext
        simp [String.toList]
      rw [e1, e2]
      simp [groupText, List.lookup, String.toList, List.range_succ]

theorem admonition_inline_matches_iff_witness :
    admonitionInline.MatchString "NOTE: careful here" = true ∧
    admonitionInline.FindStringSubmatch "NOTE: careful here" = some ["NOTE: ", "NOTE"] := by
  have h := admonition_inline_matches_iff _ admonitionInline REGEXP_eq rfl "NOTE: careful here"
  have hkw : "NOTE" ∈ ADMONITION_STYLES := by decide
  refine ⟨h.1.mpr ⟨"NOTE", hkw, ' ', "careful here".toList, Or.inl rfl, rfl⟩, ?_⟩
  exact h.2 "NOTE" hkw ' ' "careful here".toList (Or.inl rfl) rfl

theorem form_of_mem_run_uriBody (l : List Char) (e : MState)
    (h : e ∈ uriBody.run ⟨0, l, []⟩) :
    ∃ a cs tail, a.isAlpha = true ∧ (∀ c ∈ cs, SpecSchemeChar c = true) ∧
      l = a :: (cs ++ ':' :: tail) := by
  rw [uriBody_eq, run_cat, run_group] at h
  simp only [List.mem_flatMap, List.mem_map] at h
  obtain ⟨-, ⟨m0, hm0, -⟩, -⟩ := h
  simp only [uriGroup, run_cat, run_cls, run_star, run_char, List.mem_flatMap,
    mem_stepChar] at hm0
  obtain ⟨x, ⟨a, ha, hl, -, -⟩, y, hy, z, ⟨c, hc, hyz, -, -⟩, -⟩ := hm0
  have hstep : (fun m : MState => stepChar (fun x => inRanges schemeRanges x != false) m) =
      stepChar (fun x => inRanges schemeRanges x != false) := rfl
  rw [hstep] at hy
  obtain ⟨cs, hcs, hxy⟩ := mem_iterStar_stepChar _ _ _ hy
  have hcc : c = ':' := by simpa using hc
  subst hcc
  refine ⟨a, cs, z.rest, ?_, ?_, ?_⟩
  · simpa [inRanges_alpha] using ha
  · intro c hc
    simpa [inRanges_scheme] using hcs c hc
  · rw [hl, hxy, hyz]

theorem regexp_get_uri {m : GoMap Regexp} {re : Regexp} (hm : REGEXP = .ok m)
    (hre : m.get ":uri_sniff" = some re) : re = uriSniff := by
  rw [REGEXP_eq] at hm
  cases hm
  simpa [GoMap.get, List.lookup] using hre.symm

/-- C6: the `:uri_sniff` pattern matches a line exactly when the line starts
with an ASCII letter, then zero or more letters, digits, `.`, `+` or `-`, then a
colon; group 1 is then that text through the colon followed by the slashes
right after the colon, two at most (group 0 runs on to the end of the line). -/
theorem uri_sniff_matches_iff (m : GoMap Regexp) (re : Regexp)
    (hm : REGEXP = .ok m) (hre : m.get ":uri_sniff" = some re) (line : String) :
    (re.MatchString line = true ↔
      ∃ a cs tail, a.isAlpha = true ∧ (∀ c ∈ cs, SpecSchemeChar c = true) ∧
        line.toList = a :: (cs ++ ':' :: tail)) ∧
    (∀ a cs tail, a.isAlpha = true → (∀ c ∈ cs, SpecSchemeChar c = true) →
      line.toList = a :: (cs ++ ':' :: tail) →
      re.FindStringSubmatch line =
        some [String.mk (a :: (cs ++ ':' :: tail.takeWhile (fun x => x != '\n'))),
          String.mk (a :: (cs ++ ':' :: (tail.takeWhile (fun x => x == '/')).take 2))]) := by
  have hre' := regexp_get_uri hm hre
  subst hre'
  have hs : uriSniff.prog.search 0 line.toList =
      ((uriBody.run ⟨0, line.toList, []⟩).head?).map
        (fun e => (⟨0, line.toList, []⟩, e)) := search_bol_zero _ _
  constructor
  · rw [Regexp.MatchString, hs]
    constructor
    · intro h
      cases hh : (uriBody.run ⟨0, line.toList, []⟩).head? with
      | none => rw [hh] at h; exact absurd h (by simp)
      | some e => exact form_of_mem_run_uriBody _ e (List.mem_of_mem_head? hh)
    · rintro ⟨a, cs, tail, ha, hcs, hl⟩
      rw [hl, head?_run_uriBody a cs tail ha hcs]
      rfl
  · intro a cs tail ha hcs hl
    rw [Regexp.FindStringSubmatch, hs, hl, head?_run_uriBody a cs tail ha hcs]
    simp only [Option.map_some', uriSniff, Nat.sub_zero, List.take_length]
    have htk : List.take (a :: (cs ++ ':' :: List.takeWhile (fun x => x != '\n') tail)).length
        (a :: (cs ++ ':' :: tail)) =
        a :: (cs ++ ':' :: List.takeWhile (fun x => x != '\n') tail) := by
      have e : a :: (cs ++ ':' :: tail) =
          (a :: (cs ++ ':' :: List.takeWhile (fun x => x != '\n') tail)) ++
            List.dropWhile (fun x => x != '\n') tail := by
        simp
      conv_lhs => rw [e]
      exact List.take_left' rfl
    rw [htk]
    simp [groupText, List.lookup, List.range_succ, leadingSlashes]

theorem uri_sniff_matches_iff_witness :
    uriSniff.MatchString "http:///a.b\nfoo" = true ∧
    uriSniff.FindStringSubmatch "http:///a.b\nfoo" = some ["http:///a.b", "http://"] := by
  have h := uri_sniff_matches_iff _ uriSniff REGEXP_eq rfl "http:///a.b\nfoo"
  have hcs : ∀ c ∈ "ttp".toList, SpecSchemeChar c = true := by decide
  refine ⟨h.1.mpr ⟨'h', "ttp".toList, "///a.b\nfoo".toList, by decide, hcs, rfl⟩, ?_⟩
  exact h.2 'h' "ttp".toList "///a.b\nfoo".toList (by decide) hcs rfl

/-! ## Compilation of the catalog and the load entry points -/

theorem goMap_set_of_not_mem {α : Type} (m : GoMap α) (key : String) (value : α)
    (h : key ∉ m.keys) : m.set key value = m ++ [(key, value)] := by
  induction m with
  | nil => rfl
  | cons kv m ih =>
    rcases kv with ⟨k, v⟩
    have hk : k ≠ key := fun e => h (by simp [GoMap.keys, e])
    have hm : key ∉ GoMap.keys m := fun e => h (by
      simp only [GoMap.keys, List.map_cons, List.mem_cons]
      exact Or.inr e)
    simp [GoMap.set, hk, ih hm]

theorem iniREGEXPLoop_error_iff (compile : String → Except String Regexp)
    (rest : GoMap String) (acc : GoMap Regexp) :
    (∃ msg, iniREGEXPLoop compile rest acc = .error msg) ↔
      ∃ kv ∈ rest, ∃ err, compile kv.2 = .error err := by
  induction rest generalizing acc with
  | nil => simp [iniREGEXPLoop]
  | cons kv rest ih =>
    rcases kv with ⟨key, expr⟩
    cases hc : compile expr with
    | error err =>
      simp only [iniREGEXPLoop, hc, List.mem_cons]
      exact ⟨fun _ => ⟨(key, expr), Or.inl rfl, err, hc⟩, fun _ => ⟨_, rfl⟩⟩
    | ok re =>
      simp only [iniREGEXPLoop, hc, List.mem_cons]
      rw [ih]
      constructor
      · rintro ⟨kv, hkv, err, he⟩
        exact ⟨kv, Or.inr hkv, err, he⟩
      · rintro ⟨kv, hkv | hkv, err, he⟩
        · subst hkv
          rw [hc] at he
          cases he
        · exact ⟨kv, hkv, err, he⟩

theorem iniREGEXPLoop_ok (compile : String → Except String Regexp)
    (rest : GoMap String) (acc res : GoMap Regexp)
    (hnd : rest.keys.Nodup) (hdisj : ∀ k ∈ rest.keys, k ∉ acc.keys)
    (h : iniREGEXPLoop compile rest acc = .ok res) :
    ∃ added, res = acc ++ added ∧
      List.Forall₂ (fun (kv : String × String) (kr : String × Regexp) =>
        kr.1 = kv.1 ∧ compile kv.2 = .ok kr.2) rest added := by
  induction rest generalizing acc with
  | nil =>
    simp only [iniREGEXPLoop, Except.ok.injEq] at h
    exact ⟨[], by simp [h], List.Forall₂.nil⟩
  | cons kv rest ih =>
    rcases kv with ⟨key, expr⟩
    simp only [GoMap.keys, List.map_cons, List.nodup_cons] at hnd
    cases hc : compile expr with
    | error err => simp [iniREGEXPLoop, hc] at h
    | ok re =>
      simp only [iniREGEXPLoop, hc] at h
      have hkey : key ∉ acc.keys := hdisj key (by simp [GoMap.keys])
      rw [goMap_set_of_not_mem acc key re hkey] at h
      have hdisj' : ∀ k ∈ GoMap.keys rest, k ∉ GoMap.keys (acc ++ [(key, re)]) := by
        intro k hk hk'
        simp only [GoMap.keys, List.map_append, List.map_cons, List.map_nil, List.mem_append,
          List.mem_singleton] at hk'
        rcases hk' with hk' | hk'
        · exact hdisj k (by simp only [GoMap.keys, List.map_cons, List.mem_cons]; exact Or.inr hk) hk'
        · subst hk'
          exact hnd.1 hk
      obtain ⟨added, hres, hall⟩ := ih (acc ++ [(key, re)]) hnd.2 hdisj' h
      refine ⟨(key, re) :: added, by simp [hres], List.Forall₂.cons ⟨rfl, hc⟩ hall⟩

theorem forall₂_compiled (compile : String → Except String Regexp)
    (rest : GoMap String) (added : GoMap Regexp)
    (h : List.Forall₂ (fun (kv : String × String) (kr : String × Regexp) =>
        kr.1 = kv.1 ∧ compile kv.2 = .ok kr.2) rest added) :
    added.keys = rest.keys ∧
      ∀ key expr, rest.get key = some expr →
        ∃ re, compile expr = .ok re ∧ added.get key = some re := by
  induction h with
  | nil => simp [GoMap.keys, GoMap.get]
  | @cons kv kr rest added hhead _ ih =>
    rcases kv with ⟨k, e⟩
    rcases kr with ⟨k', r⟩
    obtain ⟨hk, hc⟩ := hhead
    simp only at hk hc
    subst hk
    refine ⟨by simp [GoMap.keys] at ih ⊢; exact ih.1, ?_⟩
    intro key expr hget
    simp only [GoMap.get, List.lookup] at hget ⊢
    cases hkk : key == k' with
    | true =>
      rw [hkk] at hget
      simp only [Option.some.injEq] at hget
      subst hget
      exact ⟨r, hc, rfl⟩
    | false =>
      rw [hkk] at hget
      exact ih.2 key expr hget

set_option maxRecDepth 100000 in
theorem compile_admonition :
    Regexp.Compile "^(NOTE|TIP|IMPORTANT|WARNING|CAUTION):[ \\t]" = .ok admonitionInline := by
  rfl

set_option maxRecDepth 100000 in
theorem compile_uri :
    Regexp.Compile "^([a-zA-Z][a-zA-Z0-9.+-]*:/{0,2}).*" = .ok uriSniff := by
  rfl

set_option maxRecDepth 100000 in
theorem REGEXP_STRING_eq :
    REGEXP_STRING =
      [(":admonition_inline", "^(NOTE|TIP|IMPORTANT|WARNING|CAUTION):[ \\t]"),
       (":uri_sniff", "^([a-zA-Z][a-zA-Z0-9.+-]*:/{0,2}).*")] := by
  decide

/-- C7: `iniREGEXP` fails exactly when some expression of the table does not
compile; otherwise its result has the names of the table, each bound to the
compiled form of its own expression.  Every expression of `REGEXP_STRING`
compiles, so the initialization of `REGEXP` succeeds. -/
theorem iniREGEXP_fails_fast (compile : String → Except String Regexp)
    (regexps : GoMap String) (hk : regexps.keys.Nodup) :
    ((∃ msg, iniREGEXP compile regexps = .error msg) ↔
      ∃ kv ∈ regexps, ∃ err, compile kv.2 = .error err) ∧
    (∀ res, iniREGEXP compile regexps = .ok res →
      res.keys = regexps.keys ∧
      ∀ key expr, regexps.get key = some expr →
        ∃ re, compile expr = .ok re ∧ res.get key = some re) ∧
    ((∀ kv ∈ REGEXP_STRING, ∃ re, Regexp.Compile kv.2 = .ok re) ∧
      ∃ res, REGEXP = .ok res ∧ res.keys = REGEXP_STRING.keys) := by
  refine ⟨iniREGEXPLoop_error_iff compile regexps [], ?_, ?_, ?_⟩
  · intro res hres
    obtain ⟨added, hadd, hall⟩ :=
      iniREGEXPLoop_ok compile regexps [] res hk (fun _ _ => by simp [GoMap.keys]) hres
    simp only [List.nil_append] at hadd
    subst hadd
    exact forall₂_compiled compile regexps res hall
  · intro kv hkv
    rw [REGEXP_STRING_eq] at hkv
    simp only [List.mem_cons, List.mem_singleton, List.not_mem_nil, or_false] at hkv
    rcases hkv with rfl | rfl
    · exact ⟨_, compile_admonition⟩
    · exact ⟨_, compile_uri⟩
  · refine ⟨_, REGEXP_eq, ?_⟩
    rw [REGEXP_STRING_eq]
    rfl

theorem iniREGEXP_fails_fast_witness :
    REGEXP_STRING.keys.Nodup ∧
    ∃ res, iniREGEXP Regexp.Compile REGEXP_STRING = .ok res ∧
      res.keys = [":admonition_inline", ":uri_sniff"] ∧
      res.get ":uri_sniff" = some uriSniff := by
  have hk : REGEXP_STRING.keys.Nodup := by
    rw [REGEXP_STRING_eq]
    decide
  have h := iniREGEXP_fails_fast Regexp.Compile REGEXP_STRING hk
  refine ⟨hk, _, REGEXP_eq, ?_, rfl⟩
  have h2 := (h.2.1 _ REGEXP_eq).1
  rw [h2, REGEXP_STRING_eq]
  rfl

/-- C8, as the claim states it: no pattern of the catalog matches
`[enclosed text here]`. -/
theorem catalog_has_no_bracket_matcher :
    ¬ ∃ kv ∈ REGEXP_STRING, ∃ re, Regexp.Compile kv.2 = .ok re ∧
      re.MatchString "[enclosed text here]" = true := by
  rintro ⟨kv, hkv, re, hc, hmatch⟩
  rw [REGEXP_STRING_eq] at hkv
  simp only [List.mem_cons, List.mem_singleton, List.not_mem_nil, or_false] at hkv
  rcases hkv with rfl | rfl
  · rw [compile_admonition] at hc
    cases hc
    revert hmatch
    decide
  · rw [compile_uri] at hc
    cases hc
    revert hmatch
    decide

set_option maxRecDepth 100000 in
/-- C8, amended: the catalog holds the two patterns `:admonition_inline` and
`:uri_sniff` and no other, and neither matches the two bracketed examples; the
bracket pattern of the comments is not an expression of the catalog, though
compiled on its own it matches both examples and captures the raw interior. -/
theorem catalog_is_two_patterns :
    REGEXP_STRING.keys = [":admonition_inline", ":uri_sniff"] ∧
    (∃ res, REGEXP = .ok res ∧ res.keys = [":admonition_inline", ":uri_sniff"] ∧
      ∀ kv ∈ res, kv.2.MatchString "[enclosed text here]" = false ∧
        kv.2.MatchString "[enclosed [text\\] here]" = false) ∧
    (∀ kv ∈ REGEXP_STRING, kv.2 ≠ bracketPattern) ∧
    (∃ re, Regexp.Compile bracketPattern = .ok re ∧
      re.FindStringSubmatch "[enclosed text here]" =
        some ["[enclosed text here]", "enclosed text here"] ∧
      re.FindStringSubmatch "[enclosed [text\\] here]" =
        some ["[enclosed [text\\] here]", "enclosed [text\\] here"]) := by
  refine ⟨by rw [REGEXP_STRING_eq]; rfl, ⟨_, REGEXP_eq, rfl, ?_⟩, ?_, ?_⟩
  · intro kv hkv
    simp only [List.mem_cons, List.mem_singleton, List.not_mem_nil, or_false] at hkv
    rcases hkv with rfl | rfl
    · exact ⟨by decide, by decide⟩
    · exact ⟨by decide, by decide⟩
  · intro kv hkv
    rw [REGEXP_STRING_eq] at hkv
    simp only [List.mem_cons, List.mem_singleton, List.not_mem_nil, or_false] at hkv
    rcases hkv with rfl | rfl <;> decide
  · cases hc : Regexp.Compile bracketPattern with
    | error e =>
      have : (Regexp.Compile bracketPattern).toOption.isSome = true := by decide
      rw [hc] at this
      simp [Except.toOption] at this
    | ok re =>
      refine ⟨re, rfl, ?_, ?_⟩
      · have : ((Regexp.Compile bracketPattern).toOption.bind
            (fun r => r.FindStringSubmatch "[enclosed text here]")) =
            some ["[enclosed text here]", "enclosed text here"] := by decide
        rw [hc] at this
        exact this
      · have : ((Regexp.Compile bracketPattern).toOption.bind
            (fun r => r.FindStringSubmatch "[enclosed [text\\] here]")) =
            some ["[enclosed [text\\] here]", "enclosed [text\\] here"] := by decide
        rw [hc] at this
        exact this

/-- C9, as the claim states it: on a document source the load entry points
return the nil pointer, not a Document. -/
theorem load_returns_nil_on_example :
    LoadString "== Title\n\nNOTE: careful here\n" = none ∧
    LoadStrings ["== Title", "", "NOTE: careful here"] = none := ⟨rfl, rfl⟩

/-- C9, amended: the load entry points are total and never fail, but they
return the nil pointer for every input, so no store holds a Document at the
result. -/
theorem load_is_total_and_returns_nil :
    (∀ input : String, LoadString input = none) ∧
    (∀ inputs : List String, LoadStrings inputs = none) ∧
    (∀ (Reader : Type) (input : Reader), Load input = none) ∧
    (∀ (s : Store) (input : String), deref s (LoadString input) = none) ∧
    (∀ (s : Store) (inputs : List String), deref s (LoadStrings inputs) = none) :=
  ⟨fun _ => rfl, fun _ => rfl, fun _ _ => rfl, fun _ _ => rfl, fun _ _ => rfl⟩

end Asciidocgo
